import Mathlib

/-!
# openapi2jsonschema: schema normalisation and the document-to-file pipeline

A shallow embedding of `main.go`: the recursive re-keying of decoded YAML
(`convertMap`, `convertSlice`), the derivation of output filenames, the
per-document dispatch, the document loop and the loop over input sources.

Go values of type `interface{}` are embedded as the type `Value`, a Go map as
an association list whose order is the order in which `range` visits the
entries, and the effect of a run as the list of calls to `writeSchemaFile`,
from which `filesWritten` gives the files that the calls leave. What the run
takes from outside the repository is explicit: the answers of the network, the
file system, the YAML decoder and the JSON encoder are the fields of `World`,
and the case table of the Go library is the argument `caseTable`.
-/

namespace OpenAPI2JSONSchema

/-! ## Data model -/

/-- A scalar as decoded from YAML into `interface{}`: the dynamic types a
mapping key or a leaf can have. A `float64` is held as the text that `%v` gives
for it, which is all the program ever asks of one. -/
inductive Scalar where
  | str (s : String)
  | int (i : Int)
  | float (text : String)
  | bool (b : Bool)
  | null
  deriving DecidableEq

/-- A Go value of static type `interface{}`, by dynamic type:
a scalar, a `map[interface{}]interface{}` (`rawMap`), a `map[string]interface{}`
(`strMap`), or a `[]interface{}` (`slice`). A map is the list of its entries. -/
inductive Value where
  | scalar (s : Scalar)
  | rawMap (m : List (Scalar × Value))
  | strMap (m : List (String × Value))
  | slice (s : List Value)

/-- The text of `fmt.Sprintf("%v", k)` for a scalar `k` (main.go:113). -/
def sprintV : Scalar → String
  | .str s => s
  | .int i => toString i
  | .float text => text
  | .bool b => if b then "true" else "false"
  | .null => "<nil>"

/-- The Go assignment `result[key] = value` on a `map[string]interface{}`: an
existing entry for `key` is overwritten, otherwise a new entry is added. -/
def setKey : List (String × Value) → String → Value → List (String × Value)
  | [], key, value => [(key, value)]
  | (k, v) :: rest, key, value =>
    if k = key then (k, value) :: rest else (k, v) :: setKey rest key value

/-- The Go index expression `m[key]` with the comma-ok result. -/
def getKey : List (String × Value) → String → Option Value
  | [], _ => none
  | (k, v) :: rest, key => if k = key then some v else getKey rest key

/-! ## The normaliser (main.go:110-136) -/

mutual
/-- The type switch on a value that `convertMap` (main.go:114-121) and
`convertSlice` (main.go:128-133) both perform: a raw mapping goes through
`convertMap`, a sequence through `convertSlice`, anything else is kept. -/
def normalize : Value → Value
  | .rawMap value => .strMap (convertMapLoop value [])
  | .slice value => .slice (convertSlice value)
  | value => value
termination_by structural v => v
/-- The loop `for k, v := range m` of `convertMap` (main.go:112-122), on the
entries still to visit and the `result` map built so far. -/
def convertMapLoop : List (Scalar × Value) → List (String × Value) → List (String × Value)
  | [], result => result
  | (k, v) :: rest, result => convertMapLoop rest (setKey result (sprintV k) (normalize v))
termination_by structural m => m
/-- The function `convertSlice` (main.go:126-136): every element is replaced, at
its own index, by the outcome of the type switch. -/
def convertSlice : List Value → List Value
  | [] => []
  | v :: rest => normalize v :: convertSlice rest
termination_by structural s => s
end

/-- The function `convertMap` (main.go:110-124): the loop started on the empty
`result` map. -/
def convertMap (m : List (Scalar × Value)) : List (String × Value) :=
  convertMapLoop m []

/-! ## Shapes of payloads -/

mutual
/-- A raw payload: what the YAML decoder produces, built from raw mappings,
sequences and scalars only. -/
def isRaw : Value → Bool
  | .scalar _ => true
  | .rawMap m => isRawEntries m
  | .strMap _ => false
  | .slice s => isRawList s
termination_by structural v => v
/-- Every value of the entries is a raw payload. -/
def isRawEntries : List (Scalar × Value) → Bool
  | [] => true
  | (_, v) :: rest => isRaw v && isRawEntries rest
termination_by structural m => m
/-- Every element is a raw payload. -/
def isRawList : List Value → Bool
  | [] => true
  | v :: rest => isRaw v && isRawList rest
termination_by structural s => s
end

mutual
/-- No raw mapping occurs anywhere in the value: every mapping, at every depth,
is keyed by strings. -/
def stringKeyed : Value → Bool
  | .scalar _ => true
  | .rawMap _ => false
  | .strMap m => stringKeyedEntries m
  | .slice s => stringKeyedList s
termination_by structural v => v
/-- Every value of the entries is string-keyed throughout. -/
def stringKeyedEntries : List (String × Value) → Bool
  | [] => true
  | (_, v) :: rest => stringKeyed v && stringKeyedEntries rest
termination_by structural m => m
/-- Every element is string-keyed throughout. -/
def stringKeyedList : List Value → Bool
  | [] => true
  | v :: rest => stringKeyed v && stringKeyedList rest
termination_by structural s => s
end

/-- The key of a raw entry is a string. -/
def Scalar.isStr : Scalar → Bool
  | .str _ => true
  | _ => false

mutual
/-- Every key of every raw mapping in the value, at every depth, is a string. -/
def allStringKeys : Value → Bool
  | .scalar _ => true
  | .rawMap m => allStringKeysEntries m
  | .strMap _ => false
  | .slice s => allStringKeysList s
termination_by structural v => v
/-- Every key of the entries is a string, and so throughout their values. -/
def allStringKeysEntries : List (Scalar × Value) → Bool
  | [] => true
  | (k, v) :: rest => k.isStr && allStringKeys v && allStringKeysEntries rest
termination_by structural m => m
/-- Every element has string keys throughout. -/
def allStringKeysList : List Value → Bool
  | [] => true
  | v :: rest => allStringKeys v && allStringKeysList rest
termination_by structural s => s
end

mutual
/-- The value is a well-formed Go value: no raw mapping, at any depth, holds the
same key twice. -/
def distinctKeys : Value → Bool
  | .scalar _ => true
  | .rawMap m => decide ((m.map Prod.fst).Nodup) && distinctKeysEntries m
  | .strMap _ => true
  | .slice s => distinctKeysList s
termination_by structural v => v
/-- The values of the entries are well-formed. -/
def distinctKeysEntries : List (Scalar × Value) → Bool
  | [] => true
  | (_, v) :: rest => distinctKeys v && distinctKeysEntries rest
termination_by structural m => m
/-- The elements are well-formed. -/
def distinctKeysList : List Value → Bool
  | [] => true
  | v :: rest => distinctKeys v && distinctKeysList rest
termination_by structural s => s
end

/-! ## Filename derivation (main.go:75-78, 94-96, 101-103) -/

/-- The scan of `strings.ReplaceAll(s, old, new)` for a non-empty `old`, as both
call sites have it: from left to right, every occurrence of `old` that does not
overlap an earlier one is replaced by `new`. The counter is the number of
characters of the current occurrence still to be passed over. -/
def replaceAllAux (old new : List Char) : Nat → List Char → List Char
  | _, [] => []
  | skip + 1, _ :: cs => replaceAllAux old new skip cs
  | 0, c :: cs =>
    if old.isPrefixOf (c :: cs) then new ++ replaceAllAux old new (old.length - 1) cs
    else c :: replaceAllAux old new 0 cs

/-- The library call `strings.ReplaceAll(s, old, new)`, for a non-empty `old`. -/
def replaceAll (s old new : String) : String :=
  ⟨replaceAllAux old.data new.data 0 s.data⟩

/-- The library function `unicode.ToLower`: a rune up to `MaxASCII` is handled
on the spot, the letters `A` to `Z` moved to `a` to `z` and every other one
kept; any other rune is looked up in the table `unicode.CaseRanges`, which
belongs to the Go library and is taken here as `caseTable`. -/
def unicodeToLower (caseTable : Char → Char) (r : Char) : Char :=
  if r.toNat ≤ 0x7F then
    if 65 ≤ r.toNat ∧ r.toNat ≤ 90 then Char.ofNat (r.toNat + 32) else r
  else caseTable r

/-- The library call `strings.ToLower(s)`: `unicode.ToLower` applied to every
rune of the string. -/
def toLower (caseTable : Char → Char) (s : String) : String :=
  ⟨s.data.map (unicodeToLower caseTable)⟩

/-- The library call `strings.HasPrefix(s, p)`. -/
def startsWith (s p : String) : Bool :=
  p.data.isPrefixOf s.data

/-- The template in use (main.go:75-78): the value of `FILENAME_FORMAT`, which
`os.Getenv` gives as the empty string when the variable is unset, replaced by
the default when empty. -/
def filenameFormat (getenv : String) : String :=
  if getenv = "" then "{kind}_{version}" else getenv

/-- The three statements that compute `filename` (main.go:94-96, and again
main.go:101-103). -/
def filenameFor (caseTable : Char → Char) (format kind version : String) : String :=
  let filename := replaceAll format "{kind}" kind
  let filename := replaceAll filename "{version}" version
  toLower caseTable filename ++ ".json"

/-- The characters of the token `{kind}`. -/
def kindToken : List Char := ['{', 'k', 'i', 'n', 'd', '}']

/-- The characters of the token `{version}`. -/
def versionToken : List Char := ['{', 'v', 'e', 'r', 's', 'i', 'o', 'n', '}']

/-- The text `out` is the text `s` with every occurrence of `old`, found from
left to right and not overlapping an earlier one, replaced by `new`: at an
occurrence of `old` the text `new` is given and reading goes on behind the
occurrence; elsewhere the character is kept. -/
inductive Replaced (old new : List Char) : List Char → List Char → Prop
  | done : Replaced old new [] []
  | hit {rest out : List Char} :
      Replaced old new rest out → Replaced old new (old ++ rest) (new ++ out)
  | keep {c : Char} {cs out : List Char} :
      old.isPrefixOf (c :: cs) = false → Replaced old new cs out →
      Replaced old new (c :: cs) (c :: out)

/-- The substitution in the words of the specification: the template is read
once from left to right, each occurrence of `{kind}` in the template gives the
kind, each occurrence of `{version}` in the template gives the version, and
every other character of the template is kept. The substituted text is not read
again. -/
def substituteTokensAux (kind version : List Char) : Nat → List Char → List Char
  | _, [] => []
  | skip + 1, _ :: cs => substituteTokensAux kind version skip cs
  | 0, c :: cs =>
    if kindToken.isPrefixOf (c :: cs) then
      kind ++ substituteTokensAux kind version (kindToken.length - 1) cs
    else if versionToken.isPrefixOf (c :: cs) then
      version ++ substituteTokensAux kind version (versionToken.length - 1) cs
    else c :: substituteTokensAux kind version 0 cs

/-- The filename in the words of the specification: both tokens of the template
substituted, the whole lower-cased, `.json` appended. -/
def specFilename (caseTable : Char → Char) (template kind version : String) : String :=
  toLower caseTable ⟨substituteTokensAux kind.data version.data 0 template.data⟩ ++ ".json"

/-- Every opening brace of the template starts one of the two tokens. -/
def tokensOnly : List Char → Bool
  | [] => true
  | c :: cs =>
    (c != '{' || kindToken.isPrefixOf (c :: cs) || versionToken.isPrefixOf (c :: cs))
      && tokensOnly cs

/-! ## Documents and the per-document dispatch (main.go:18-35, 91-105) -/

/-- An entry of `spec.versions` (main.go:25-30). A nil map is `none`; a map
that is present, also an empty one, is `some`. -/
structure VersionRecord where
  name : String
  openAPIV3Schema : Option (List (Scalar × Value))

/-- The struct `Schema` (main.go:18-35), with `spec.names.kind` as `kind` and
`spec.validation.openAPIV3Schema` as `validation`. -/
structure Schema where
  kind : String
  group : String
  version : String
  versions : List VersionRecord
  validation : Option (List (Scalar × Value))

/-- A call `writeSchemaFile(log, schema, filename)`: the filename and the schema
handed over. Whether the call leaves a file is up to `writeSchemaFile`. -/
abbrev Write := String × List (String × Value)

/-- The loop over `def.Spec.Versions` (main.go:92-99): the calls of
`writeSchemaFile` it makes. -/
def versionsLoop (caseTable : Char → Char) (format kind : String) :
    List VersionRecord → List Write
  | [] => []
  | version :: rest =>
    match version.openAPIV3Schema with
    | some schema =>
      (filenameFor caseTable format kind version.name, convertMap schema)
        :: versionsLoop caseTable format kind rest
    | none => versionsLoop caseTable format kind rest

/-- The body of the document loop after a successful decode (main.go:91-105):
the calls of `writeSchemaFile` it makes. The function returns nothing to its
caller, so the calls made do not depend on how an earlier call ended. -/
def processDocument (caseTable : Char → Char) (format : String) (d : Schema) : List Write :=
  if d.versions.length > 0 then
    versionsLoop caseTable format d.kind d.versions
  else
    match d.validation with
    | some schema => [(filenameFor caseTable format d.kind d.version, convertMap schema)]
    | none => []

/-! ## The decoder (gopkg.in/yaml.v2) -/

/-- What the bytes of one document of the stream hold: a document that decodes
into `Schema`; well-formed YAML that does not fit `Schema`, for which `Decode`
returns a `*yaml.TypeError` after reading the document; or malformed YAML, at
which the parser of the library stops with an error. -/
inductive Decoded where
  | document (d : Schema)
  | mismatch
  | malformed

/-- The state of a `*yaml.Decoder`: the documents not yet read, and whether the
parser has stopped with an error. -/
structure Decoder where
  pending : List Decoded
  broken : Bool

/-- What a call of `decoder.Decode(&def)` does: it returns `io.EOF`, returns
another error, returns nil with `def` filled, or panics. -/
inductive DecodeOutcome where
  | eof
  | error
  | ok (d : Schema)
  | panic

/-- A call of `decoder.Decode(&def)`: the outcome and the decoder afterwards.
Once the parser has stopped with an error it gives no further event, and the
library then panics with "attempted to parse unknown event", a panic that
`Decode` does not recover. -/
def Decoder.decode : Decoder → DecodeOutcome × Decoder
  | ⟨pending, true⟩ => (.panic, ⟨pending, true⟩)
  | ⟨[], false⟩ => (.eof, ⟨[], false⟩)
  | ⟨.document d :: rest, false⟩ => (.ok d, ⟨rest, false⟩)
  | ⟨.mismatch :: rest, false⟩ => (.error, ⟨rest, false⟩)
  | ⟨.malformed :: rest, false⟩ => (.error, ⟨rest, true⟩)

/-- A malformed document occurs among the documents. -/
def hasMalformed : List Decoded → Bool
  | [] => false
  | .malformed :: _ => true
  | _ :: rest => hasMalformed rest

/-! ## The surroundings of a run -/

/-- What `client.Get` followed by `io.ReadAll(resp.Body)` can do: the request
fails, or a response arrives whose body yields `body` and possibly an error. -/
inductive GetResult where
  | failed
  | response (body : String) (readFailed : Bool)

/-- The surroundings of a run: the value of `FILENAME_FORMAT`, the answers of
the network and of the file system to reads, the documents the YAML decoder
finds in given bytes, the answer of `json.MarshalIndent(schema, "", "  ")`
(`none` for an error), and whether `os.WriteFile(filename, data, 0644)`
succeeds. -/
structure World where
  getenv : String
  httpGet : String → GetResult
  readFile : String → String × Bool
  yaml : String → List Decoded
  marshalIndent : List (String × Value) → Option String
  writeFile : String → String → Bool

/-! ## Writing a schema (main.go:138-152) -/

/-- How a call of `writeSchemaFile` ends: at the return of main.go:142, at the
return of main.go:148, or at main.go:151 with the file written. -/
inductive WriteResult where
  | marshalFailed
  | writeFailed
  | written (schemaJSON : String)

/-- The function `writeSchemaFile` (main.go:138-152). -/
def writeSchemaFile (w : World) (schema : List (String × Value)) (filename : String) :
    WriteResult :=
  match w.marshalIndent schema with
  | none => .marshalFailed
  | some schemaJSON =>
    if w.writeFile filename schemaJSON then .written schemaJSON else .writeFailed

/-- The files that a list of calls of `writeSchemaFile` leaves written, each
with its content, in the order of the calls. -/
def filesWritten (w : World) : List Write → List (String × String)
  | [] => []
  | (filename, schema) :: rest =>
    match writeSchemaFile w schema filename with
    | .written schemaJSON => (filename, schemaJSON) :: filesWritten w rest
    | _ => filesWritten w rest

/-! ## The document loop (main.go:80-106) -/

/-- How a loop ends: the calls of `writeSchemaFile` made, and whether the
program was stopped by a panic. -/
structure Outcome where
  calls : List Write
  panicked : Bool

/-- The loop `for { ... }` of main.go:80-106, with a bound on the number of
iterations: `none` when the bound is reached before the loop is left. -/
def documentLoop (caseTable : Char → Char) (format : String) :
    Nat → Decoder → Option Outcome
  | 0, _ => none
  | fuel + 1, decoder =>
    match decoder.decode with
    | (.eof, _) => some ⟨[], false⟩
    | (.panic, _) => some ⟨[], true⟩
    | (.error, decoder) => documentLoop caseTable format fuel decoder
    | (.ok d, decoder) =>
      (documentLoop caseTable format fuel decoder).map
        (fun later => ⟨processDocument caseTable format d ++ later.calls, later.panicked⟩)

/-! ## The loop over the sources (main.go:53-107) -/

/-- The statements main.go:54-67 for one source: `none` when the `continue` of
main.go:61 is taken, otherwise the values of `data` and of the `err` declared
at main.go:55 when main.go:69 is reached. In the HTTP branch `resp, err :=`
(main.go:58) declares a new `err` for the block, so main.go:64 assigns the
outcome of `io.ReadAll` to that inner variable and the outer `err` stays nil. -/
def readSource (w : World) (crdFile : String) : Option (String × Bool) :=
  if startsWith crdFile "http" then
    match w.httpGet crdFile with
    | .failed => none
    | .response body _ => some (body, false)
  else
    some (w.readFile crdFile)

/-- The loop `for _, crdFile := range os.Args[1:]` (main.go:53-107), with the
bound handed to every document loop. A panic in a document loop ends the
program, so the sources after it are not read. -/
def sourcesLoop (w : World) (caseTable : Char → Char) (fuel : Nat) :
    List String → Option Outcome
  | [] => some ⟨[], false⟩
  | crdFile :: rest =>
    match readSource w crdFile with
    | none => sourcesLoop w caseTable fuel rest
    | some (data, err) =>
      if err then sourcesLoop w caseTable fuel rest
      else
        match documentLoop caseTable (filenameFormat w.getenv) fuel ⟨w.yaml data, false⟩ with
        | none => none
        | some o =>
          if o.panicked then some o
          else (sourcesLoop w caseTable fuel rest).map
            (fun later => ⟨o.calls ++ later.calls, later.panicked⟩)

/-! ## Relations between a payload and its normal form -/

mutual
/-- The value `out` is the re-keyed form of the raw value `inp`: a scalar is
itself, a sequence is re-keyed element by element, and a raw mapping becomes a
string-keyed mapping whose keys are exactly the text forms of the keys of the
raw mapping and whose every entry is the re-keyed form of an entry of the raw
mapping under the text form of its key. -/
inductive Rekeyed : Value → Value → Prop
  | scalar (s : Scalar) : Rekeyed (.scalar s) (.scalar s)
  | slice {xs ys : List Value} : RekeyedList xs ys → Rekeyed (.slice xs) (.slice ys)
  | map {m : List (Scalar × Value)} {out : List (String × Value)} :
      (∀ key, key ∈ out.map Prod.fst ↔ ∃ k ∈ m.map Prod.fst, sprintV k = key) →
      (∀ key w, (key, w) ∈ out → RekeyedEntry m key w) →
      Rekeyed (.rawMap m) (.strMap out)
/-- The sequences have the same length and correspond index by index. -/
inductive RekeyedList : List Value → List Value → Prop
  | nil : RekeyedList [] []
  | cons {x y : Value} {xs ys : List Value} :
      Rekeyed x y → RekeyedList xs ys → RekeyedList (x :: xs) (y :: ys)
/-- The entry `(key, w)` comes from an entry `(k, v)` of the raw mapping `m`:
the key is the text form of `k` and the value the re-keyed form of `v`. -/
inductive RekeyedEntry : List (Scalar × Value) → String → Value → Prop
  | intro {m : List (Scalar × Value)} {k : Scalar} {v w : Value} :
      (k, v) ∈ m → Rekeyed v w → RekeyedEntry m (sprintV k) w
end

mutual
/-- The copy of a raw tree in which only the representation of the mappings
changes: a raw mapping becomes a string-keyed mapping with the same entries in
the same order, each key by its text, each value copied in the same way; a
sequence is copied element by element; a scalar is itself. -/
def asStringKeyed : Value → Value
  | .scalar s => .scalar s
  | .rawMap m => .strMap (asStringKeyedEntries m)
  | .strMap m => .strMap m
  | .slice s => .slice (asStringKeyedList s)
termination_by structural v => v
/-- The entries copied in order. -/
def asStringKeyedEntries : List (Scalar × Value) → List (String × Value)
  | [] => []
  | (k, v) :: rest => (sprintV k, asStringKeyed v) :: asStringKeyedEntries rest
termination_by structural m => m
/-- The elements copied in order. -/
def asStringKeyedList : List Value → List Value
  | [] => []
  | v :: rest => asStringKeyed v :: asStringKeyedList rest
termination_by structural s => s
end

/-- The calls of a stream of documents in the words of the specification: the
dispatch outputs of the documents that decoded, in document order; a document
that failed to decode contributes nothing. -/
def streamWrites (caseTable : Char → Char) (format : String) : List Decoded → List Write
  | [] => []
  | .document d :: rest => processDocument caseTable format d ++ streamWrites caseTable format rest
  | _ :: rest => streamWrites caseTable format rest

/-! ## Sample inputs -/

/-- A raw mapping with an integer, a boolean and a string key, a mapping nested
as a value and a mapping nested inside a sequence. -/
def sampleMixedKeys : List (Scalar × Value) :=
  [(.int 1, .scalar (.str "a")),
   (.bool true, .rawMap [(.int 2, .scalar .null)]),
   (.str "s", .slice [.rawMap [(.null, .scalar (.int 0))], .scalar (.bool false)])]

/-- The input of `TestConvertMap` (main_test.go:15-26). -/
def testConvertMapInput : List (Scalar × Value) :=
  [(.str "key1", .scalar (.str "value1")),
   (.str "key2", .rawMap [(.str "nestedKey1", .scalar (.str "nestedValue1"))]),
   (.str "key3", .slice [.scalar (.str "value3"),
      .rawMap [(.str "nestedKey2", .scalar (.str "nestedValue2"))]])]

/-- The value `expected` of `TestConvertMap` (main_test.go:28-39). -/
def testConvertMapExpected : List (String × Value) :=
  [("key1", .scalar (.str "value1")),
   ("key2", .strMap [("nestedKey1", .scalar (.str "nestedValue1"))]),
   ("key3", .slice [.scalar (.str "value3"),
      .strMap [("nestedKey2", .scalar (.str "nestedValue2"))]])]

/-- A raw mapping whose keys integer 1 and string "1" have the same text. -/
def sampleCollidingKeys : List (Scalar × Value) :=
  [(.int 1, .scalar (.str "a")), (.str "1", .scalar (.str "b"))]

/-- The entries of `unicode.CaseRanges` for the Latin-1 Supplement: the letters
U+00C0 to U+00D6 and U+00D8 to U+00DE are moved up by 32. The samples hold no
rune beyond this block. -/
def latin1CaseTable (r : Char) : Char :=
  if (0xC0 ≤ r.toNat ∧ r.toNat ≤ 0xD6) ∨ (0xD8 ≤ r.toNat ∧ r.toNat ≤ 0xDE) then
    Char.ofNat (r.toNat + 32)
  else r

/-- A document of kind `Widget` with one version `v1` that has a schema. -/
def widgetDocument : Schema :=
  ⟨"Widget", "", "", [⟨"v1", some [(.str "type", .scalar (.str "object"))]⟩], none⟩

/-- The bytes of `widgetDocument` as YAML. -/
def widgetYaml : String :=
  "spec:\n  names:\n    kind: Widget\n  versions:\n  - name: v1\n    schema:\n      openAPIV3Schema:\n        type: object\n"

/-- The bytes of a stream of two documents: `a: b: c`, which is malformed YAML,
and behind the separator the document of `widgetYaml`. -/
def malformedThenWidgetYaml : String :=
  "a: b: c\n---\n" ++ widgetYaml

/-- The answers of `json.MarshalIndent(schema, "", "  ")` on the two schemas
the samples hand over, the empty mapping and the schema of `widgetDocument`.
The sample worlds are asked about no other schema. -/
def sampleMarshalIndent : List (String × Value) → Option String
  | [] => some "\x7b\x7d"
  | [(key, .scalar (.str value))] =>
    if key = "type" ∧ value = "object" then some "\x7b\n  \"type\": \"object\"\n\x7d" else none
  | _ => none

/-- A run in which the request for a URL succeeds and the read of the response
body fails after the bytes of `widgetYaml` have arrived, so that `io.ReadAll`
returns those bytes together with an error; every file read fails. -/
def brokenBodyWorld : World where
  getenv := ""
  httpGet := fun _ => .response widgetYaml true
  readFile := fun _ => ("", true)
  yaml := fun data => if data = widgetYaml then [.document widgetDocument] else []
  marshalIndent := sampleMarshalIndent
  writeFile := fun _ _ => true

/-- A run in which the file `bundle.yaml` holds `malformedThenWidgetYaml` and
the file `widget.yaml` holds `widgetYaml`; every read and every write
succeeds. -/
def malformedFirstWorld : World where
  getenv := ""
  httpGet := fun _ => .failed
  readFile := fun crdFile =>
    if crdFile = "bundle.yaml" then (malformedThenWidgetYaml, false)
    else if crdFile = "widget.yaml" then (widgetYaml, false)
    else ("", true)
  yaml := fun data =>
    if data = malformedThenWidgetYaml then [.malformed, .document widgetDocument]
    else if data = widgetYaml then [.document widgetDocument]
    else []
  marshalIndent := sampleMarshalIndent
  writeFile := fun _ _ => true

/-! ## Theorems -/

/-- Induction over values: a property that holds of scalars, and of a mapping
or sequence whenever it holds of all the values inside, holds of every value. -/
theorem Value.induct {P : Value → Prop}
    (hscalar : ∀ s, P (.scalar s))
    (hraw : ∀ m : List (Scalar × Value), (∀ p ∈ m, P p.2) → P (.rawMap m))
    (hstr : ∀ m : List (String × Value), (∀ p ∈ m, P p.2) → P (.strMap m))
    (hslice : ∀ xs : List Value, (∀ x ∈ xs, P x) → P (.slice xs)) :
    ∀ v, P v :=
  @Value.rec P (fun m => ∀ p ∈ m, P p.2) (fun m => ∀ p ∈ m, P p.2)
    (fun xs => ∀ x ∈ xs, P x) (fun p => P p.2) (fun p => P p.2)
    hscalar hraw hstr hslice
    (fun p hp => by simp at hp)
    (fun head tail hh ht p hp => by
      rcases List.mem_cons.mp hp with h | h
      · exact h ▸ hh
      · exact ht p h)
    (fun p hp => by simp at hp)
    (fun head tail hh ht p hp => by
      rcases List.mem_cons.mp hp with h | h
      · exact h ▸ hh
      · exact ht p h)
    (fun x hx => by simp at hx)
    (fun head tail hh ht x hx => by
      rcases List.mem_cons.mp hx with h | h
      · exact h ▸ hh
      · exact ht x h)
    (fun _ _ h => h)
    (fun _ _ h => h)

theorem normalize_scalar (s : Scalar) : normalize (.scalar s) = .scalar s := by
  simp [normalize]

theorem normalize_rawMap (m : List (Scalar × Value)) :
    normalize (.rawMap m) = .strMap (convertMap m) := by
  simp [normalize, convertMap]

theorem normalize_strMap (m : List (String × Value)) : normalize (.strMap m) = .strMap m := by
  simp [normalize]

theorem normalize_slice (xs : List Value) : normalize (.slice xs) = .slice (convertSlice xs) := by
  simp [normalize]

theorem convertSlice_eq_map (xs : List Value) : convertSlice xs = xs.map normalize := by
  induction xs with
  | nil => simp [convertSlice]
  | cons x xs ih => simp [convertSlice, ih]

/-- One iteration of the loop of `convertMap` with the type switch written out
as in main.go:113-121. -/
theorem convertMapLoop_switch (k : Scalar) (v : Value) (rest : List (Scalar × Value))
    (result : List (String × Value)) :
    convertMapLoop ((k, v) :: rest) result
      = match v with
        | .rawMap value =>
          convertMapLoop rest (setKey result (sprintV k) (.strMap (convertMap value)))
        | .slice value =>
          convertMapLoop rest (setKey result (sprintV k) (.slice (convertSlice value)))
        | value => convertMapLoop rest (setKey result (sprintV k) value) := by
  cases v <;> simp [convertMapLoop, normalize, convertMap]

/-- One iteration of the loop of `convertSlice` with the type switch written out
as in main.go:128-133. -/
theorem convertSlice_switch (v : Value) (rest : List Value) :
    convertSlice (v :: rest)
      = match v with
        | .rawMap value => .strMap (convertMap value) :: convertSlice rest
        | .slice value => .slice (convertSlice value) :: convertSlice rest
        | value => value :: convertSlice rest := by
  cases v <;> simp [convertSlice, normalize, convertMap]

theorem convertMapLoop_eq_foldl (m : List (Scalar × Value)) (result : List (String × Value)) :
    convertMapLoop m result
      = m.foldl (fun acc p => setKey acc (sprintV p.1) (normalize p.2)) result := by
  induction m generalizing result with
  | nil => simp [convertMapLoop]
  | cons p rest ih =>
    obtain ⟨k, v⟩ := p
    simp [convertMapLoop, ih]

/-! ### The assignment `result[key] = value` -/

theorem mem_keys_setKey (acc : List (String × Value)) (k : String) (v : Value) (key : String) :
    key ∈ (setKey acc k v).map Prod.fst ↔ key = k ∨ key ∈ acc.map Prod.fst := by
  induction acc with
  | nil => simp [setKey]
  | cons p rest ih =>
    obtain ⟨k0, v0⟩ := p
    by_cases h : k0 = k
    · subst h
      simp [setKey]
    · simp only [setKey, if_neg h, List.map_cons, List.mem_cons, ih]
      tauto

theorem length_setKey (acc : List (String × Value)) (k : String) (v : Value) :
    (setKey acc k v).length = if k ∈ acc.map Prod.fst then acc.length else acc.length + 1 := by
  induction acc with
  | nil => simp [setKey]
  | cons p rest ih =>
    obtain ⟨k0, v0⟩ := p
    by_cases h : k0 = k
    · subst h
      simp [setKey]
    · have h2 : ¬ k = k0 := fun e => h e.symm
      simp only [setKey, if_neg h, List.length_cons, ih, List.map_cons, List.mem_cons, h2,
        false_or]
      split <;> rfl

theorem setKey_of_not_mem (acc : List (String × Value)) (k : String) (v : Value)
    (h : k ∉ acc.map Prod.fst) : setKey acc k v = acc ++ [(k, v)] := by
  induction acc with
  | nil => simp [setKey]
  | cons p rest ih =>
    obtain ⟨k0, v0⟩ := p
    simp only [List.map_cons, List.mem_cons, not_or] at h
    have h0 : ¬ k0 = k := fun e => h.1 e.symm
    simp [setKey, h0, ih h.2]

theorem getKey_setKey (acc : List (String × Value)) (k : String) (v : Value) (key : String) :
    getKey (setKey acc k v) key = if k = key then some v else getKey acc key := by
  induction acc with
  | nil => simp [setKey, getKey]
  | cons p rest ih =>
    obtain ⟨k0, v0⟩ := p
    by_cases h : k0 = k
    · subst h
      by_cases h2 : k0 = key <;> simp [setKey, getKey, h2]
    · by_cases h2 : k0 = key
      · subst h2
        have h3 : ¬ k = k0 := fun e => h e.symm
        simp [setKey, getKey, h, h3]
      · simp [setKey, getKey, h, h2, ih]

theorem mem_setKey (acc : List (String × Value)) (k : String) (v : Value)
    (key : String) (w : Value) (h : (key, w) ∈ setKey acc k v) :
    (key, w) ∈ acc ∨ (key = k ∧ w = v) := by
  induction acc with
  | nil => simpa [setKey] using h
  | cons p rest ih =>
    obtain ⟨k0, v0⟩ := p
    by_cases h0 : k0 = k
    · subst h0
      simp only [setKey, if_true, List.mem_cons, Prod.mk.injEq] at h
      rcases h with h | h
      · exact Or.inr h
      · exact Or.inl (List.mem_cons_of_mem _ h)
    · simp only [setKey, if_neg h0, List.mem_cons] at h
      rcases h with h | h
      · exact Or.inl (h ▸ List.mem_cons_self _ _)
      · rcases ih h with h | h
        · exact Or.inl (List.mem_cons_of_mem _ h)
        · exact Or.inr h

/-! ### The loop of `convertMap` -/

theorem mem_keys_convertMapLoop (m : List (Scalar × Value)) (result : List (String × Value))
    (key : String) :
    key ∈ (convertMapLoop m result).map Prod.fst
      ↔ key ∈ result.map Prod.fst ∨ ∃ k ∈ m.map Prod.fst, sprintV k = key := by
  induction m generalizing result with
  | nil => simp [convertMapLoop]
  | cons p rest ih =>
    obtain ⟨k, v⟩ := p
    simp only [convertMapLoop, ih, mem_keys_setKey, List.map_cons, List.mem_cons,
      exists_eq_or_imp]
    constructor
    · rintro ((h | h) | h)
      · exact Or.inr (Or.inl h.symm)
      · exact Or.inl h
      · exact Or.inr (Or.inr h)
    · rintro (h | h | h)
      · exact Or.inl (Or.inr h)
      · exact Or.inl (Or.inl h.symm)
      · exact Or.inr h

theorem length_convertMapLoop_le (m : List (Scalar × Value)) (result : List (String × Value)) :
    (convertMapLoop m result).length ≤ result.length + m.length := by
  induction m generalizing result with
  | nil => simp [convertMapLoop]
  | cons p rest ih =>
    obtain ⟨k, v⟩ := p
    have h1 := ih (setKey result (sprintV k) (normalize v))
    have h2 := length_setKey result (sprintV k) (normalize v)
    simp only [convertMapLoop, List.length_cons]
    split at h2 <;> omega

theorem length_convertMapLoop_eq_iff (m : List (Scalar × Value))
    (result : List (String × Value)) :
    (convertMapLoop m result).length = result.length + m.length
      ↔ (m.map (fun p => sprintV p.1)).Nodup
          ∧ ∀ p ∈ m, sprintV p.1 ∉ result.map Prod.fst := by
  induction m generalizing result with
  | nil => simp [convertMapLoop]
  | cons p rest ih =>
    obtain ⟨k, v⟩ := p
    have h1 := length_convertMapLoop_le rest (setKey result (sprintV k) (normalize v))
    have h2 := length_setKey result (sprintV k) (normalize v)
    have h3 := ih (setKey result (sprintV k) (normalize v))
    simp only [convertMapLoop, List.length_cons, List.map_cons, List.nodup_cons,
      List.mem_cons, forall_eq_or_imp]
    by_cases hk : sprintV k ∈ result.map Prod.fst
    · rw [if_pos hk] at h2
      constructor
      · intro h
        omega
      · intro h
        exact absurd hk h.2.1
    · rw [if_neg hk] at h2
      constructor
      · intro h
        have h4 : (convertMapLoop rest (setKey result (sprintV k) (normalize v))).length
            = (setKey result (sprintV k) (normalize v)).length + rest.length := by omega
        obtain ⟨hnd, hdis⟩ := h3.mp h4
        refine ⟨⟨?_, hnd⟩, hk, ?_⟩
        · intro hin
          obtain ⟨q, hq, heq⟩ := List.mem_map.mp hin
          exact hdis q hq ((mem_keys_setKey _ _ _ _).mpr (Or.inl heq))
        · intro q hq hmem
          exact hdis q hq ((mem_keys_setKey _ _ _ _).mpr (Or.inr hmem))
      · rintro ⟨⟨hfresh, hnd⟩, _, hdis⟩
        have h4 := h3.mpr ⟨hnd, fun q hq hmem => by
          rcases (mem_keys_setKey _ _ _ _).mp hmem with h | h
          · exact hfresh (h ▸ List.mem_map_of_mem (fun p => sprintV p.1) hq)
          · exact hdis q hq h⟩
        omega

theorem getKey_convertMapLoop_of_not_mem (m : List (Scalar × Value))
    (result : List (String × Value)) (key : String)
    (h : ∀ p ∈ m, sprintV p.1 ≠ key) :
    getKey (convertMapLoop m result) key = getKey result key := by
  induction m generalizing result with
  | nil => simp [convertMapLoop]
  | cons p rest ih =>
    obtain ⟨k, v⟩ := p
    have hk : ¬ sprintV k = key := h (k, v) (List.mem_cons_self _ _)
    simp only [convertMapLoop]
    rw [ih _ (fun q hq => h q (List.mem_cons_of_mem _ hq)), getKey_setKey, if_neg hk]

theorem getKey_convertMapLoop (m : List (Scalar × Value)) (result : List (String × Value))
    (hnd : (m.map (fun p => sprintV p.1)).Nodup) (k : Scalar) (v : Value)
    (hmem : (k, v) ∈ m) :
    getKey (convertMapLoop m result) (sprintV k) = some (normalize v) := by
  induction m generalizing result with
  | nil => simp at hmem
  | cons p rest ih =>
    obtain ⟨k0, v0⟩ := p
    simp only [List.map_cons, List.nodup_cons, List.mem_map, not_exists, not_and] at hnd
    simp only [convertMapLoop]
    rcases List.mem_cons.mp hmem with h | h
    · injection h with hk hv
      subst hk
      subst hv
      rw [getKey_convertMapLoop_of_not_mem _ _ _ (fun q hq => hnd.1 q hq), getKey_setKey,
        if_pos rfl]
    · exact ih _ hnd.2 h

theorem mem_convertMapLoop (m : List (Scalar × Value)) (result : List (String × Value))
    (key : String) (w : Value) (h : (key, w) ∈ convertMapLoop m result) :
    (key, w) ∈ result ∨ ∃ k v, (k, v) ∈ m ∧ sprintV k = key ∧ w = normalize v := by
  induction m generalizing result with
  | nil => exact Or.inl (by simpa [convertMapLoop] using h)
  | cons p rest ih =>
    obtain ⟨k, v⟩ := p
    simp only [convertMapLoop] at h
    rcases ih _ h with h | ⟨k1, v1, h1, h2, h3⟩
    · rcases mem_setKey _ _ _ _ _ h with h | ⟨h4, h5⟩
      · exact Or.inl h
      · exact Or.inr ⟨k, v, List.mem_cons_self _ _, h4.symm, h5⟩
    · exact Or.inr ⟨k1, v1, List.mem_cons_of_mem _ h1, h2, h3⟩

theorem convertMapLoop_of_nodup (m : List (Scalar × Value)) (result : List (String × Value))
    (hnd : (m.map (fun p => sprintV p.1)).Nodup)
    (hdis : ∀ p ∈ m, sprintV p.1 ∉ result.map Prod.fst) :
    convertMapLoop m result = result ++ m.map (fun p => (sprintV p.1, normalize p.2)) := by
  induction m generalizing result with
  | nil => simp [convertMapLoop]
  | cons p rest ih =>
    obtain ⟨k, v⟩ := p
    simp only [List.map_cons, List.nodup_cons, List.mem_map, not_exists, not_and] at hnd
    have hk : sprintV k ∉ result.map Prod.fst := hdis (k, v) (List.mem_cons_self _ _)
    simp only [convertMapLoop, List.map_cons]
    rw [ih _ hnd.2, setKey_of_not_mem _ _ _ hk]
    · simp
    · intro q hq hmem
      rw [setKey_of_not_mem _ _ _ hk] at hmem
      simp only [List.map_append, List.map_cons, List.map_nil, List.mem_append,
        List.mem_singleton] at hmem
      rcases hmem with h | h
      · exact hdis q (List.mem_cons_of_mem _ hq) h
      · exact hnd.1 q hq h

/-! ### Shapes -/

theorem isRawEntries_iff (m : List (Scalar × Value)) :
    isRawEntries m = true ↔ ∀ p ∈ m, isRaw p.2 = true := by
  induction m with
  | nil => simp [isRawEntries]
  | cons p rest ih =>
    obtain ⟨k, v⟩ := p
    simp [isRawEntries, ih]

theorem isRawList_iff (xs : List Value) :
    isRawList xs = true ↔ ∀ x ∈ xs, isRaw x = true := by
  induction xs with
  | nil => simp [isRawList]
  | cons x rest ih => simp [isRawList, ih]

theorem stringKeyedEntries_iff (m : List (String × Value)) :
    stringKeyedEntries m = true ↔ ∀ p ∈ m, stringKeyed p.2 = true := by
  induction m with
  | nil => simp [stringKeyedEntries]
  | cons p rest ih =>
    obtain ⟨k, v⟩ := p
    simp [stringKeyedEntries, ih]

theorem stringKeyedList_iff (xs : List Value) :
    stringKeyedList xs = true ↔ ∀ x ∈ xs, stringKeyed x = true := by
  induction xs with
  | nil => simp [stringKeyedList]
  | cons x rest ih => simp [stringKeyedList, ih]

theorem allStringKeysEntries_iff (m : List (Scalar × Value)) :
    allStringKeysEntries m = true
      ↔ ∀ p ∈ m, p.1.isStr = true ∧ allStringKeys p.2 = true := by
  induction m with
  | nil => simp [allStringKeysEntries]
  | cons p rest ih =>
    obtain ⟨k, v⟩ := p
    simp [allStringKeysEntries, ih, and_assoc]

theorem allStringKeysList_iff (xs : List Value) :
    allStringKeysList xs = true ↔ ∀ x ∈ xs, allStringKeys x = true := by
  induction xs with
  | nil => simp [allStringKeysList]
  | cons x rest ih => simp [allStringKeysList, ih]

theorem distinctKeysEntries_iff (m : List (Scalar × Value)) :
    distinctKeysEntries m = true ↔ ∀ p ∈ m, distinctKeys p.2 = true := by
  induction m with
  | nil => simp [distinctKeysEntries]
  | cons p rest ih =>
    obtain ⟨k, v⟩ := p
    simp [distinctKeysEntries, ih]

theorem distinctKeysList_iff (xs : List Value) :
    distinctKeysList xs = true ↔ ∀ x ∈ xs, distinctKeys x = true := by
  induction xs with
  | nil => simp [distinctKeysList]
  | cons x rest ih => simp [distinctKeysList, ih]

theorem sprintV_injOn_str (a b : Scalar) (ha : a.isStr = true) (hb : b.isStr = true)
    (h : sprintV a = sprintV b) : a = b := by
  cases a <;> cases b <;> simp_all [Scalar.isStr, sprintV]

theorem textKeys_nodup (m : List (Scalar × Value))
    (hstr : ∀ p ∈ m, p.1.isStr = true) (hnd : (m.map Prod.fst).Nodup) :
    (m.map (fun p => sprintV p.1)).Nodup := by
  have h : m.map (fun p => sprintV p.1) = (m.map Prod.fst).map sprintV := by simp
  rw [h]
  refine List.Nodup.map_on ?_ hnd
  intro a ha b hb hab
  obtain ⟨p, hp, rfl⟩ := List.mem_map.mp ha
  obtain ⟨q, hq, rfl⟩ := List.mem_map.mp hb
  exact sprintV_injOn_str _ _ (hstr p hp) (hstr q hq) hab

theorem asStringKeyedEntries_eq_map (m : List (Scalar × Value)) :
    asStringKeyedEntries m = m.map (fun p => (sprintV p.1, asStringKeyed p.2)) := by
  induction m with
  | nil => simp [asStringKeyedEntries]
  | cons p rest ih =>
    obtain ⟨k, v⟩ := p
    simp [asStringKeyedEntries, ih]

theorem asStringKeyedList_eq_map (xs : List Value) :
    asStringKeyedList xs = xs.map asStringKeyed := by
  induction xs with
  | nil => simp [asStringKeyedList]
  | cons x rest ih => simp [asStringKeyedList, ih]

theorem rekeyedList_of_forall (xs : List Value)
    (h : ∀ x ∈ xs, Rekeyed x (normalize x)) : RekeyedList xs (convertSlice xs) := by
  induction xs with
  | nil => exact RekeyedList.nil
  | cons x rest ih =>
    simp only [convertSlice]
    exact RekeyedList.cons (h x (List.mem_cons_self _ _))
      (ih (fun y hy => h y (List.mem_cons_of_mem _ hy)))

theorem normalize_rekeyed (v : Value) :
    isRaw v = true → Rekeyed v (normalize v) ∧ stringKeyed (normalize v) = true := by
  refine Value.induct (P := fun v => isRaw v = true →
      Rekeyed v (normalize v) ∧ stringKeyed (normalize v) = true) ?_ ?_ ?_ ?_ v
  · intro s _
    exact ⟨by rw [normalize_scalar]; exact Rekeyed.scalar s, by simp [normalize, stringKeyed]⟩
  · intro m ih hraw
    have hraw2 : ∀ p ∈ m, isRaw p.2 = true := (isRawEntries_iff m).mp (by simpa [isRaw] using hraw)
    rw [normalize_rawMap]
    constructor
    · refine Rekeyed.map ?_ ?_
      · intro key
        have h := mem_keys_convertMapLoop m [] key
        simpa [convertMap] using h
      · intro key w hmem
        rcases mem_convertMapLoop m [] key w hmem with h | ⟨k, v, h1, h2, h3⟩
        · simp at h
        · subst h2
          subst h3
          exact RekeyedEntry.intro h1 (ih (k, v) h1 (hraw2 (k, v) h1)).1
    · simp only [stringKeyed]
      rw [stringKeyedEntries_iff]
      rintro ⟨key, w⟩ hmem
      rcases mem_convertMapLoop m [] key w hmem with h | ⟨k, v, h1, _, h3⟩
      · simp at h
      · subst h3
        exact (ih (k, v) h1 (hraw2 (k, v) h1)).2
  · intro m _ hraw
    simp [isRaw] at hraw
  · intro xs ih hraw
    have hraw2 : ∀ x ∈ xs, isRaw x = true := (isRawList_iff xs).mp (by simpa [isRaw] using hraw)
    rw [normalize_slice]
    constructor
    · exact Rekeyed.slice (rekeyedList_of_forall xs (fun x hx => (ih x hx (hraw2 x hx)).1))
    · simp only [stringKeyed]
      rw [stringKeyedList_iff, convertSlice_eq_map]
      intro y hy
      obtain ⟨x, hx, rfl⟩ := List.mem_map.mp hy
      exact (ih x hx (hraw2 x hx)).2

theorem normalize_eq_asStringKeyed (v : Value) :
    allStringKeys v = true → distinctKeys v = true → normalize v = asStringKeyed v := by
  refine Value.induct (P := fun v => allStringKeys v = true → distinctKeys v = true →
      normalize v = asStringKeyed v) ?_ ?_ ?_ ?_ v
  · intro s _ _
    simp [normalize, asStringKeyed]
  · intro m ih hs hd
    have hs2 := (allStringKeysEntries_iff m).mp (by simpa [allStringKeys] using hs)
    simp only [distinctKeys, Bool.and_eq_true, decide_eq_true_eq] at hd
    have hd2 := (distinctKeysEntries_iff m).mp hd.2
    have hnd := textKeys_nodup m (fun p hp => (hs2 p hp).1) hd.1
    rw [normalize_rawMap]
    simp only [asStringKeyed, convertMap]
    rw [convertMapLoop_of_nodup m [] hnd (by simp), asStringKeyedEntries_eq_map]
    simp only [List.nil_append, Value.strMap.injEq]
    refine List.map_congr_left ?_
    intro p hp
    rw [ih p hp (hs2 p hp).2 (hd2 p hp)]
  · intro m _ hs _
    simp [allStringKeys] at hs
  · intro xs ih hs hd
    have hs2 := (allStringKeysList_iff xs).mp (by simpa [allStringKeys] using hs)
    have hd2 := (distinctKeysList_iff xs).mp (by simpa [distinctKeys] using hd)
    rw [normalize_slice]
    simp only [asStringKeyed, Value.slice.injEq]
    rw [convertSlice_eq_map, asStringKeyedList_eq_map]
    refine List.map_congr_left ?_
    intro x hx
    exact ih x hx (hs2 x hx) (hd2 x hx)

/-! ### The normaliser: claims -/

/-- C1: for every raw mapping `m`, the result of `convertMap m` is keyed by
strings at every depth, its keys are exactly the `%v` text forms of the keys of
`m`, and the same holds of every mapping nested as a value or inside a
sequence (`Rekeyed`); integer 1 has the text "1", `true` the text "true", and a
string is its own text. -/
theorem convertMap_keys_are_text_forms (m : List (Scalar × Value))
    (hraw : isRaw (.rawMap m) = true) :
    stringKeyed (.strMap (convertMap m)) = true
      ∧ (∀ key, key ∈ (convertMap m).map Prod.fst ↔ ∃ k ∈ m.map Prod.fst, sprintV k = key)
      ∧ Rekeyed (.rawMap m) (.strMap (convertMap m))
      ∧ sprintV (.int 1) = "1" ∧ sprintV (.bool true) = "true"
      ∧ ∀ s : String, sprintV (.str s) = s := by
  have h := normalize_rekeyed (.rawMap m) hraw
  rw [normalize_rawMap] at h
  refine ⟨h.2, ?_, h.1, by decide, by decide, fun s => rfl⟩
  intro key
  simpa [convertMap] using mem_keys_convertMapLoop m [] key

/-- Witness of C1 on a mapping with integer, boolean, string and null keys. -/
theorem convertMap_keys_are_text_forms_witness :
    isRaw (.rawMap sampleMixedKeys) = true
      ∧ convertMap sampleMixedKeys
          = [("1", .scalar (.str "a")),
             ("true", .strMap [("2", .scalar .null)]),
             ("s", .slice [.strMap [("<nil>", .scalar (.int 0))], .scalar (.bool false)])]
      ∧ Rekeyed (.rawMap sampleMixedKeys) (.strMap (convertMap sampleMixedKeys)) :=
  ⟨by decide, rfl,
    (convertMap_keys_are_text_forms sampleMixedKeys (by decide)).2.2.1⟩

/-- C2: normalisation is idempotent: for every value `x` built from mappings,
sequences and scalars, `normalize (normalize x) = normalize x`, where
`normalize` is the type switch of `convertMap` and `convertSlice`. -/
theorem normalize_idempotent (x : Value) : normalize (normalize x) = normalize x := by
  refine Value.induct (P := fun x => normalize (normalize x) = normalize x) ?_ ?_ ?_ ?_ x
  · intro s
    simp [normalize]
  · intro m _
    rw [normalize_rawMap, normalize_strMap]
  · intro m _
    rw [normalize_strMap, normalize_strMap]
  · intro xs ih
    rw [normalize_slice, normalize_slice, convertSlice_eq_map, convertSlice_eq_map,
      List.map_map]
    simp only [Value.slice.injEq]
    refine List.map_congr_left ?_
    intro y hy
    exact ih y hy

/-- C3: for every sequence `s`, `convertSlice s` has the length of `s` and at
every index holds the normal form of the element of `s` at that index:
`convertMap` of a raw mapping, `convertSlice` of a sequence, the element itself
otherwise; and a sequence `s` that is a value of a mapping `m` (whose keys have
distinct texts) is found in `convertMap m`, under the text of its key, as
`convertSlice s`. -/
theorem convertSlice_preserves (s : List Value) :
    (convertSlice s).length = s.length
      ∧ (∀ i : Nat, (convertSlice s)[i]? = (s[i]?).map (fun v =>
          match v with
          | .rawMap m => .strMap (convertMap m)
          | .slice t => .slice (convertSlice t)
          | v => v))
      ∧ (∀ (m : List (Scalar × Value)) (k : Scalar),
          (m.map (fun p => sprintV p.1)).Nodup → (k, .slice s) ∈ m →
          getKey (convertMap m) (sprintV k) = some (.slice (convertSlice s)))
      ∧ ∀ (m : List (Scalar × Value)) (key : String),
          (key, .slice s) ∈ convertMap m →
          ∃ k t, (k, Value.slice t) ∈ m ∧ sprintV k = key ∧ s = convertSlice t := by
  have hd : (fun v : Value =>
      match v with
      | .rawMap m => Value.strMap (convertMap m)
      | .slice t => Value.slice (convertSlice t)
      | v => v) = normalize := by
    funext v
    cases v <;> simp [normalize, convertMap]
  refine ⟨by simp [convertSlice_eq_map], ?_, ?_, ?_⟩
  · intro i
    rw [hd, convertSlice_eq_map, List.getElem?_map]
  · intro m k hnd hmem
    have h := getKey_convertMapLoop m [] hnd k (.slice s) hmem
    rw [normalize_slice] at h
    exact h
  · intro m key hmem
    rcases mem_convertMapLoop m [] key (.slice s) hmem with h | ⟨k, v, h1, h2, h3⟩
    · simp at h
    · cases v with
      | scalar a => simp [normalize] at h3
      | rawMap a => simp [normalize] at h3
      | strMap a => simp [normalize] at h3
      | slice t =>
        rw [normalize_slice] at h3
        exact ⟨k, t, h1, h2, Value.slice.inj h3⟩

/-- Witness of C3: a sequence that is the value of a mapping entry. -/
theorem convertSlice_preserves_witness :
    getKey (convertMap sampleMixedKeys) "s"
      = some (.slice (convertSlice
          [.rawMap [(.null, .scalar (.int 0))], .scalar (.bool false)])) :=
  (convertSlice_preserves [.rawMap [(.null, .scalar (.int 0))], .scalar (.bool false)]).2.2.1
    sampleMixedKeys (.str "s") (by decide) (by simp [sampleMixedKeys])

/-- C6: for every raw mapping whose keys are strings at every depth (and, as in
any Go map, distinct within each mapping), `convertMap` returns the same tree
with only the representation of the mappings changed: the same entries in each
mapping, under the same keys, the same elements in each sequence in the same
order, the same scalars. -/
theorem convertMap_string_keys_structural (m : List (Scalar × Value))
    (hstr : allStringKeys (.rawMap m) = true) (hdist : distinctKeys (.rawMap m) = true) :
    Value.strMap (convertMap m) = asStringKeyed (.rawMap m)
      ∧ (convertMap m).length = m.length
      ∧ (convertMap m).map (fun p => Scalar.str p.1) = m.map Prod.fst := by
  have h := normalize_eq_asStringKeyed (.rawMap m) hstr hdist
  rw [normalize_rawMap] at h
  have hs2 := (allStringKeysEntries_iff m).mp (by simpa [allStringKeys] using hstr)
  have h2 : convertMap m = asStringKeyedEntries m := by
    simpa [asStringKeyed] using h
  refine ⟨h, ?_, ?_⟩
  · rw [h2, asStringKeyedEntries_eq_map, List.length_map]
  · rw [h2, asStringKeyedEntries_eq_map, List.map_map]
    refine List.map_congr_left ?_
    rintro ⟨k, v⟩ hp
    have hk := (hs2 (k, v) hp).1
    cases k <;> simp_all [Scalar.isStr, sprintV]

/-- Witness of C6: the input and the expected value of `TestConvertMap`. -/
theorem convertMap_string_keys_structural_witness :
    convertMap testConvertMapInput = testConvertMapExpected
      ∧ Value.strMap (convertMap testConvertMapInput)
          = asStringKeyed (.rawMap testConvertMapInput) :=
  ⟨rfl,
    (convertMap_string_keys_structural testConvertMapInput (by decide) (by decide)).1⟩

/-- C10: for every raw mapping `m`, `convertMap m` has at most as many entries
as `m`, and exactly as many if and only if the text forms of the keys of `m`
are pairwise distinct; in that case the result maps the text form of every key
of `m` to the normal form of the value of that key. -/
theorem convertMap_entry_count (m : List (Scalar × Value)) :
    (convertMap m).length ≤ m.length
      ∧ ((convertMap m).length = m.length ↔ (m.map (fun p => sprintV p.1)).Nodup)
      ∧ ((m.map (fun p => sprintV p.1)).Nodup →
          ∀ k v, (k, v) ∈ m → getKey (convertMap m) (sprintV k) = some (normalize v)) := by
  refine ⟨?_, ?_, ?_⟩
  · simpa [convertMap] using length_convertMapLoop_le m []
  · simpa [convertMap] using length_convertMapLoop_eq_iff m []
  · intro hnd k v hmem
    exact getKey_convertMapLoop m [] hnd k v hmem

/-- Witness of C10: the entry of the boolean key of the sample mapping; and the
keys integer 1 and string "1" collapse into one entry. -/
theorem convertMap_entry_count_witness :
    getKey (convertMap sampleMixedKeys) "true" = some (.strMap [("2", .scalar .null)])
      ∧ (convertMap sampleCollidingKeys).length = 1 :=
  ⟨(convertMap_entry_count sampleMixedKeys).2.2 (by decide) (.bool true)
      (.rawMap [(.int 2, .scalar .null)]) (by simp [sampleMixedKeys]),
    by decide⟩

/-! ### Filename derivation -/

theorem isPrefixOf_iff_append (xs ys : List Char) :
    xs.isPrefixOf ys = true ↔ ∃ rest, ys = xs ++ rest := by
  induction xs generalizing ys with
  | nil => simp [List.isPrefixOf]
  | cons x xs ih =>
    cases ys with
    | nil => simp [List.isPrefixOf]
    | cons y ys =>
      simp only [List.isPrefixOf, Bool.and_eq_true, beq_iff_eq, ih, List.cons_append,
        List.cons.injEq]
      constructor
      · rintro ⟨rfl, rest, rfl⟩
        exact ⟨rest, rfl, rfl⟩
      · rintro ⟨rest, rfl, rfl⟩
        exact ⟨rfl, rest, rfl⟩

theorem replaceAllAux_skip (old new : List Char) (xs rest : List Char) :
    replaceAllAux old new xs.length (xs ++ rest) = replaceAllAux old new 0 rest := by
  induction xs with
  | nil => simp
  | cons x xs ih => simpa [replaceAllAux] using ih

theorem substituteTokensAux_skip (k v : List Char) (xs rest : List Char) :
    substituteTokensAux k v xs.length (xs ++ rest) = substituteTokensAux k v 0 rest := by
  induction xs with
  | nil => simp
  | cons x xs ih => simpa [substituteTokensAux] using ih

theorem replaceAllAux_hit (o : Char) (os new rest : List Char) :
    replaceAllAux (o :: os) new 0 ((o :: os) ++ rest)
      = new ++ replaceAllAux (o :: os) new 0 rest := by
  have h : (o :: os).isPrefixOf (o :: (os ++ rest)) = true :=
    (isPrefixOf_iff_append _ _).mpr ⟨rest, rfl⟩
  show replaceAllAux (o :: os) new 0 (o :: (os ++ rest)) = _
  rw [replaceAllAux, if_pos h]
  simp only [List.length_cons, Nat.add_sub_cancel]
  rw [replaceAllAux_skip]

theorem replaceAllAux_miss (old new : List Char) (c : Char) (cs : List Char)
    (h : old.isPrefixOf (c :: cs) = false) :
    replaceAllAux old new 0 (c :: cs) = c :: replaceAllAux old new 0 cs := by
  simp [replaceAllAux, h]

theorem versionToken_miss (c : Char) (cs : List Char) (hc : c ≠ '{') :
    versionToken.isPrefixOf (c :: cs) = false := by
  have h : ¬ ('{' = c) := fun e => hc e.symm
  simp [versionToken, List.isPrefixOf, h]

theorem replaceAllAux_version_through (v k x : List Char) (hk : '{' ∉ k) :
    replaceAllAux versionToken v 0 (k ++ x) = k ++ replaceAllAux versionToken v 0 x := by
  induction k with
  | nil => simp
  | cons c cs ih =>
    simp only [List.mem_cons, not_or] at hk
    have hc : c ≠ '{' := fun e => hk.1 e.symm
    rw [List.cons_append, replaceAllAux_miss _ _ _ _ (versionToken_miss c _ hc), ih hk.2]
    rfl

theorem replaceAllAux_kind_over_version (k rest : List Char) :
    replaceAllAux kindToken k 0 (versionToken ++ rest)
      = versionToken ++ replaceAllAux kindToken k 0 rest := by
  simp [versionToken, kindToken, replaceAllAux, List.isPrefixOf]

theorem tokensOnly_append (xs rest : List Char) (h : tokensOnly (xs ++ rest) = true) :
    tokensOnly rest = true := by
  induction xs with
  | nil => simpa using h
  | cons x xs ih =>
    simp only [List.cons_append, tokensOnly, Bool.and_eq_true] at h
    exact ih h.2

theorem sequential_eq_simultaneous (k v : List Char) (hk : '{' ∉ k) :
    ∀ (n : Nat) (t : List Char), t.length ≤ n → tokensOnly t = true →
      replaceAllAux versionToken v 0 (replaceAllAux kindToken k 0 t)
        = substituteTokensAux k v 0 t := by
  intro n
  induction n with
  | zero =>
    intro t ht _
    have : t = [] := List.length_eq_zero.mp (Nat.le_zero.mp ht)
    subst this
    simp [replaceAllAux, substituteTokensAux]
  | succ n ih =>
    intro t ht htok
    cases t with
    | nil => simp [replaceAllAux, substituteTokensAux]
    | cons c cs =>
      by_cases h1 : kindToken.isPrefixOf (c :: cs) = true
      · obtain ⟨rest, hrest⟩ := (isPrefixOf_iff_append _ _).mp h1
        have hlen : rest.length ≤ n := by
          have := congrArg List.length hrest
          simp [kindToken] at this ht
          omega
        have htok2 : tokensOnly rest = true := tokensOnly_append kindToken rest (hrest ▸ htok)
        have hS : substituteTokensAux k v 0 (c :: cs) = k ++ substituteTokensAux k v 0 rest := by
          simp only [substituteTokensAux, h1, if_true]
          have hcs : cs = kindToken.tail ++ rest := by
            have := congrArg List.tail hrest
            simpa [kindToken] using this
          rw [hcs]
          exact congrArg (k ++ ·) (substituteTokensAux_skip k v kindToken.tail rest)
        rw [hS, hrest]
        have hR : replaceAllAux kindToken k 0 (kindToken ++ rest)
            = k ++ replaceAllAux kindToken k 0 rest :=
          replaceAllAux_hit '{' ['k', 'i', 'n', 'd', '}'] k rest
        rw [hR, replaceAllAux_version_through v k _ hk, ih rest hlen htok2]
      · have h1f : kindToken.isPrefixOf (c :: cs) = false := (Bool.not_eq_true _).mp h1
        by_cases h2 : versionToken.isPrefixOf (c :: cs) = true
        · obtain ⟨rest, hrest⟩ := (isPrefixOf_iff_append _ _).mp h2
          have hlen : rest.length ≤ n := by
            have := congrArg List.length hrest
            simp [versionToken] at this ht
            omega
          have htok2 : tokensOnly rest = true :=
            tokensOnly_append versionToken rest (hrest ▸ htok)
          have hS : substituteTokensAux k v 0 (c :: cs)
              = v ++ substituteTokensAux k v 0 rest := by
            simp only [substituteTokensAux, h1f, h2, if_true, Bool.false_eq_true, if_false]
            have hcs : cs = versionToken.tail ++ rest := by
              have := congrArg List.tail hrest
              simpa [versionToken] using this
            rw [hcs]
            exact congrArg (v ++ ·) (substituteTokensAux_skip k v versionToken.tail rest)
          rw [hS, hrest, replaceAllAux_kind_over_version]
          have hV : replaceAllAux versionToken v 0
              (versionToken ++ replaceAllAux kindToken k 0 rest)
              = v ++ replaceAllAux versionToken v 0 (replaceAllAux kindToken k 0 rest) :=
            replaceAllAux_hit '{' ['v', 'e', 'r', 's', 'i', 'o', 'n', '}'] v
              (replaceAllAux kindToken k 0 rest)
          rw [hV, ih rest hlen htok2]
        · have h2f : versionToken.isPrefixOf (c :: cs) = false :=
            (Bool.not_eq_true _).mp h2
          have hc : c ≠ '{' := by
            intro e
            subst e
            simp only [tokensOnly, h1f, h2f] at htok
            simp at htok
          have htok2 : tokensOnly cs = true := by
            simp only [tokensOnly, Bool.and_eq_true] at htok
            exact htok.2
          have hlen : cs.length ≤ n := by
            simp at ht
            omega
          rw [replaceAllAux_miss _ _ _ _ h1f,
            replaceAllAux_miss _ _ _ _ (versionToken_miss c _ hc)]
          simp only [substituteTokensAux, h1f, h2f, Bool.false_eq_true, if_false]
          rw [ih cs hlen htok2]

theorem replaced_replaceAllAux (o : Char) (os new : List Char) :
    ∀ (n : Nat) (s : List Char), s.length ≤ n →
      Replaced (o :: os) new s (replaceAllAux (o :: os) new 0 s) := by
  intro n
  induction n with
  | zero =>
    intro s hs
    have : s = [] := List.length_eq_zero.mp (Nat.le_zero.mp hs)
    subst this
    exact Replaced.done
  | succ n ih =>
    intro s hs
    cases s with
    | nil => exact Replaced.done
    | cons c cs =>
      by_cases h : (o :: os).isPrefixOf (c :: cs) = true
      · obtain ⟨rest, hrest⟩ := (isPrefixOf_iff_append _ _).mp h
        have hlen : rest.length ≤ n := by
          have := congrArg List.length hrest
          simp at this hs
          omega
        rw [hrest, replaceAllAux_hit]
        exact Replaced.hit (ih rest hlen)
      · have hf : (o :: os).isPrefixOf (c :: cs) = false := (Bool.not_eq_true _).mp h
        have hlen : cs.length ≤ n := by
          simp at hs
          omega
        rw [replaceAllAux_miss _ _ _ _ hf]
        exact Replaced.keep hf (ih cs hlen)

theorem replaced_unique (o : Char) (os new s out : List Char)
    (h : Replaced (o :: os) new s out) : out = replaceAllAux (o :: os) new 0 s := by
  induction h with
  | done => simp [replaceAllAux]
  | hit _ ih => rw [replaceAllAux_hit, ih]
  | keep hmiss _ ih => rw [replaceAllAux_miss _ _ _ _ hmiss, ih]

theorem versionsLoop_eq_filterMap (caseTable : Char → Char) (format kind : String)
    (rs : List VersionRecord) :
    versionsLoop caseTable format kind rs
      = rs.filterMap (fun x => x.openAPIV3Schema.map
          (fun schema => (filenameFor caseTable format kind x.name, convertMap schema))) := by
  induction rs with
  | nil => simp [versionsLoop]
  | cons r rest ih =>
    cases h : r.openAPIV3Schema with
    | none => simp [versionsLoop, h, ih]
    | some schema => simp [versionsLoop, h, ih]

theorem mem_filesWritten (w : World) (calls : List Write) (filename schemaJSON : String) :
    (filename, schemaJSON) ∈ filesWritten w calls
      ↔ ∃ schema, (filename, schema) ∈ calls ∧ w.marshalIndent schema = some schemaJSON
          ∧ w.writeFile filename schemaJSON = true := by
  induction calls with
  | nil => simp [filesWritten]
  | cons c rest ih =>
    obtain ⟨f, schema⟩ := c
    cases hm : w.marshalIndent schema with
    | none =>
      have e : filesWritten w ((f, schema) :: rest) = filesWritten w rest := by
        simp [filesWritten, writeSchemaFile, hm]
      rw [e, ih]
      constructor
      · rintro ⟨s, hs, h1, h2⟩
        exact ⟨s, List.mem_cons_of_mem _ hs, h1, h2⟩
      · rintro ⟨s, hs, h1, h2⟩
        rcases List.mem_cons.mp hs with h | h
        · injection h with hf hschema
          subst hschema
          rw [hm] at h1
          cases h1
        · exact ⟨s, h, h1, h2⟩
    | some json =>
      cases hw : w.writeFile f json with
      | false =>
        have e : filesWritten w ((f, schema) :: rest) = filesWritten w rest := by
          simp [filesWritten, writeSchemaFile, hm, hw]
        rw [e, ih]
        constructor
        · rintro ⟨s, hs, h1, h2⟩
          exact ⟨s, List.mem_cons_of_mem _ hs, h1, h2⟩
        · rintro ⟨s, hs, h1, h2⟩
          rcases List.mem_cons.mp hs with h | h
          · injection h with hf hschema
            subst hschema
            subst hf
            rw [hm] at h1
            injection h1 with h1
            subst h1
            rw [hw] at h2
            cases h2
          · exact ⟨s, h, h1, h2⟩
      | true =>
        have e : filesWritten w ((f, schema) :: rest) = (f, json) :: filesWritten w rest := by
          simp [filesWritten, writeSchemaFile, hm, hw]
        rw [e, List.mem_cons, ih]
        constructor
        · rintro (h | ⟨s, hs, h1, h2⟩)
          · injection h with hf hj
            subst hf
            subst hj
            exact ⟨schema, List.mem_cons_self _ _, hm, hw⟩
          · exact ⟨s, List.mem_cons_of_mem _ hs, h1, h2⟩
        · rintro ⟨s, hs, h1, h2⟩
          rcases List.mem_cons.mp hs with h | h
          · injection h with hf hschema
            subst hschema
            subst hf
            rw [hm] at h1
            injection h1 with h1
            subst h1
            exact Or.inl rfl
          · exact Or.inr ⟨s, h, h1, h2⟩

/-- C5, as amended: for every template, kind and version name the filename is
the lower-casing of the text obtained from the template by replacing each
`{kind}` by the kind and then, in the text so obtained, each `{version}` by the
version name, followed by `.json`; when every opening brace of the template
starts one of the two tokens and the kind holds no opening brace, that is the
template with each of its own tokens replaced. Lower-casing is
`unicode.ToLower` rune by rune: `A` to `Z` become `a` to `z`, other ASCII is
kept, other runes go through the case table. The template is
`{kind}_{version}` when `FILENAME_FORMAT` is unset or empty and its value
otherwise. -/
theorem filenameFor_eq_specFilename (caseTable : Char → Char) (t k v : String) :
    (∃ mid out, Replaced kindToken k.data t.data mid
        ∧ Replaced versionToken v.data mid out
        ∧ (filenameFor caseTable t k v).data
            = out.map (unicodeToLower caseTable) ++ (".json" : String).data
        ∧ ∀ mid2 out2, Replaced kindToken k.data t.data mid2 →
            Replaced versionToken v.data mid2 out2 → out2 = out)
      ∧ (tokensOnly t.data = true → '{' ∉ k.data →
          filenameFor caseTable t k v = specFilename caseTable t k v)
      ∧ (∀ r : Char, r.toNat ≤ 0x7F → unicodeToLower caseTable r = r.toLower)
      ∧ (∀ r : Char, 0x7F < r.toNat → unicodeToLower caseTable r = caseTable r)
      ∧ toLower caseTable "ABCDEFGHIJKLMNOPQRSTUVWXYZ_09-/.az"
          = "abcdefghijklmnopqrstuvwxyz_09-/.az"
      ∧ filenameFormat "" = "{kind}_{version}"
      ∧ (∀ e : String, e ≠ "" → filenameFormat e = e)
      ∧ filenameFor caseTable (filenameFormat "") "Foo" "v2" = "foo_v2.json"
      ∧ filenameFor caseTable (filenameFormat "schemas/{version}-{kind}") "Foo" "v2"
          = "schemas/v2-foo.json"
      ∧ filenameFor caseTable (filenameFormat "") "TestKind" "v1" = "testkind_v1.json" := by
  refine ⟨?_, ?_, ?_, ?_, rfl, by decide, ?_, rfl, rfl, rfl⟩
  · refine ⟨replaceAllAux kindToken k.data 0 t.data,
      replaceAllAux versionToken v.data 0 (replaceAllAux kindToken k.data 0 t.data),
      replaced_replaceAllAux _ _ _ _ _ (Nat.le_refl _),
      replaced_replaceAllAux _ _ _ _ _ (Nat.le_refl _), ?_, ?_⟩
    · simp [filenameFor, replaceAll, toLower, kindToken, versionToken]
    · intro mid2 out2 h1 h2
      have e1 := replaced_unique _ _ _ _ _ h1
      have e2 := replaced_unique _ _ _ _ _ h2
      rw [e2, e1]
      rfl
  · intro ht hk
    have h := sequential_eq_simultaneous k.data v.data hk t.data.length t.data
      (Nat.le_refl _) ht
    unfold kindToken versionToken at h
    simp only [filenameFor, specFilename, replaceAll]
    rw [h]
  · intro r hr
    simp only [unicodeToLower, if_pos hr, Char.toLower, ge_iff_le]
  · intro r hr
    have : ¬ r.toNat ≤ 0x7F := by omega
    simp only [unicodeToLower, if_neg this]
  · intro e he
    simp [filenameFormat, he]

/-- Witness of C5, as amended: the template `schemas/{version}-{kind}` with kind
`ÉCOLE` and version `V2`. -/
theorem filenameFor_eq_specFilename_witness :
    tokensOnly ("schemas/{version}-{kind}" : String).data = true
      ∧ filenameFor latin1CaseTable "schemas/{version}-{kind}" "ÉCOLE" "V2"
          = specFilename latin1CaseTable "schemas/{version}-{kind}" "ÉCOLE" "V2"
      ∧ specFilename latin1CaseTable "schemas/{version}-{kind}" "ÉCOLE" "V2"
          = "schemas/v2-école.json" :=
  ⟨by decide,
    (filenameFor_eq_specFilename latin1CaseTable "schemas/{version}-{kind}" "ÉCOLE" "V2").2.1
      (by decide) (by decide),
    by decide⟩

/-- Counterexample to C5 as stated: with the template `{kind}`, the kind
`{version}` and the version `v1`, the only token of the template is `{kind}`,
so the claim gives `{version}.json`; main.go gives `v1.json`, since its second
`ReplaceAll` reads the text that already holds the kind. -/
theorem filenameFor_rescans_kind :
    filenameFor latin1CaseTable "{kind}" "{version}" "v1" = "v1.json"
      ∧ specFilename latin1CaseTable "{kind}" "{version}" "v1" = "{version}.json"
      ∧ filenameFor latin1CaseTable "{kind}" "{version}" "v1"
          ≠ specFilename latin1CaseTable "{kind}" "{version}" "v1" :=
  ⟨by decide, by decide, by decide⟩

/-! ### Dispatch and loops -/

/-- C4: for every document, the calls of `writeSchemaFile` are: with one or more
version records, one call per record whose schema is not nil, in the order of
the records, each with `convertMap` of that schema and the filename of the kind
and the record's name, whatever the legacy schema is; with no version record,
one call with `convertMap` of the legacy schema and the filename of the kind and
the top-level version when the legacy schema is not nil, and no call when it is
nil. Versions `v1` with schema `S1` and `v2` with a nil schema, kind `Widget`,
give the one call `("widget_v1.json", convertMap S1)`. -/
theorem processDocument_dispatch (caseTable : Char → Char)
    (format kind group version : String)
    (r : VersionRecord) (rs : List VersionRecord)
    (legacy : Option (List (Scalar × Value))) (S1 : List (Scalar × Value)) :
    processDocument caseTable format ⟨kind, group, version, r :: rs, legacy⟩
        = (r :: rs).filterMap (fun x => x.openAPIV3Schema.map
            (fun schema => (filenameFor caseTable format kind x.name, convertMap schema)))
      ∧ processDocument caseTable format ⟨kind, group, version, [], legacy⟩
        = (match legacy with
           | some schema => [(filenameFor caseTable format kind version, convertMap schema)]
           | none => [])
      ∧ processDocument caseTable (filenameFormat "")
          ⟨"Widget", group, version, [⟨"v1", some S1⟩, ⟨"v2", none⟩], legacy⟩
        = [("widget_v1.json", convertMap S1)] := by
  refine ⟨?_, ?_, ?_⟩
  · simp only [processDocument, List.length_cons, gt_iff_lt, Nat.zero_lt_succ, if_true]
    exact versionsLoop_eq_filterMap caseTable format kind (r :: rs)
  · simp [processDocument]
  · have h : filenameFor caseTable (filenameFormat "") "Widget" "v1" = "widget_v1.json" := rfl
    simp [processDocument, versionsLoop, h]

/-- C9, as amended: `writeSchemaFile` is called for a version record, or for a
legacy document, if and only if its schema is not nil, and the call leaves the
output file if and only if, in addition, `json.MarshalIndent` accepts the
converted schema and `os.WriteFile` succeeds. A schema that is present but an
empty mapping gets the call, and the file under the same two conditions. -/
theorem written_iff_schema_present (w : World) (caseTable : Char → Char)
    (format kind group version : String)
    (r : VersionRecord) (rs : List VersionRecord)
    (legacy : Option (List (Scalar × Value))) :
    (∀ c, c ∈ processDocument caseTable format ⟨kind, group, version, r :: rs, legacy⟩
        ↔ ∃ x ∈ r :: rs, ∃ schema, x.openAPIV3Schema = some schema
            ∧ c = (filenameFor caseTable format kind x.name, convertMap schema))
      ∧ (processDocument caseTable format ⟨kind, group, version, r :: rs, legacy⟩).length
          = ((r :: rs).filter (fun x => x.openAPIV3Schema.isSome)).length
      ∧ (∀ filename schemaJSON,
          (filename, schemaJSON) ∈ filesWritten w
              (processDocument caseTable format ⟨kind, group, version, r :: rs, legacy⟩)
            ↔ ∃ x ∈ r :: rs, ∃ schema, x.openAPIV3Schema = some schema
                ∧ filename = filenameFor caseTable format kind x.name
                ∧ w.marshalIndent (convertMap schema) = some schemaJSON
                ∧ w.writeFile filename schemaJSON = true)
      ∧ (processDocument caseTable format ⟨kind, group, version, [], legacy⟩ ≠ []
          ↔ legacy ≠ none)
      ∧ (∀ filename schemaJSON,
          (filename, schemaJSON) ∈ filesWritten w
              (processDocument caseTable format ⟨kind, group, version, [], legacy⟩)
            ↔ ∃ schema, legacy = some schema
                ∧ filename = filenameFor caseTable format kind version
                ∧ w.marshalIndent (convertMap schema) = some schemaJSON
                ∧ w.writeFile filename schemaJSON = true)
      ∧ processDocument caseTable format ⟨kind, group, version, [⟨r.name, some []⟩], legacy⟩
          = [(filenameFor caseTable format kind r.name, [])]
      ∧ processDocument caseTable format ⟨kind, group, version, [], some []⟩
          = [(filenameFor caseTable format kind version, [])]
      ∧ (∀ schemaJSON, w.marshalIndent [] = some schemaJSON →
          w.writeFile (filenameFor caseTable format kind r.name) schemaJSON = true →
          filesWritten w (processDocument caseTable format
              ⟨kind, group, version, [⟨r.name, some []⟩], legacy⟩)
            = [(filenameFor caseTable format kind r.name, schemaJSON)]) := by
  have hd : processDocument caseTable format ⟨kind, group, version, r :: rs, legacy⟩
      = versionsLoop caseTable format kind (r :: rs) := by
    simp [processDocument]
  have hcalls : ∀ c, c ∈ processDocument caseTable format
      ⟨kind, group, version, r :: rs, legacy⟩
        ↔ ∃ x ∈ r :: rs, ∃ schema, x.openAPIV3Schema = some schema
            ∧ c = (filenameFor caseTable format kind x.name, convertMap schema) := by
    intro c
    rw [hd, versionsLoop_eq_filterMap, List.mem_filterMap]
    constructor
    · rintro ⟨x, hx, hc⟩
      cases h : x.openAPIV3Schema with
      | none => simp [h] at hc
      | some schema =>
        refine ⟨x, hx, schema, h, ?_⟩
        simpa [h] using hc.symm
    · rintro ⟨x, hx, schema, hs, hc⟩
      exact ⟨x, hx, by simp [hs, hc]⟩
  refine ⟨hcalls, ?_, ?_, ?_, ?_, ?_, ?_, ?_⟩
  · rw [hd]
    generalize r :: rs = l
    induction l with
    | nil => simp [versionsLoop]
    | cons x rest ih =>
      cases h : x.openAPIV3Schema with
      | none => simp [versionsLoop, h, ih]
      | some schema => simp [versionsLoop, h, ih]
  · intro filename schemaJSON
    rw [mem_filesWritten]
    constructor
    · rintro ⟨s, hs, h1, h2⟩
      obtain ⟨x, hx, schema, hsome, hc⟩ := (hcalls _).mp hs
      injection hc with hf hschema
      subst hschema
      exact ⟨x, hx, schema, hsome, hf, h1, h2⟩
    · rintro ⟨x, hx, schema, hsome, hf, h1, h2⟩
      exact ⟨convertMap schema, (hcalls _).mpr ⟨x, hx, schema, hsome, by rw [hf]⟩, h1, h2⟩
  · cases legacy <;> simp [processDocument]
  · intro filename schemaJSON
    rw [mem_filesWritten]
    cases legacy with
    | none => simp [processDocument]
    | some schema =>
      simp only [processDocument, List.length_nil, gt_iff_lt, Nat.lt_irrefl, if_false,
        List.mem_singleton, Prod.mk.injEq, Option.some.injEq]
      constructor
      · rintro ⟨s, ⟨hf, rfl⟩, h1, h2⟩
        exact ⟨schema, rfl, hf, h1, h2⟩
      · rintro ⟨s, hs, hf, h1, h2⟩
        subst hs
        exact ⟨_, ⟨hf, rfl⟩, h1, h2⟩
  · simp [processDocument, versionsLoop, convertMap, convertMapLoop]
  · simp [processDocument, convertMap, convertMapLoop]
  · intro schemaJSON hm hw
    simp [processDocument, versionsLoop, convertMap, convertMapLoop, filesWritten,
      writeSchemaFile, hm, hw]

/-- Witness of C9, as amended: a version record whose schema is the empty
mapping, in a world where the empty mapping marshals and the write succeeds. -/
theorem written_iff_schema_present_witness :
    filesWritten brokenBodyWorld (processDocument latin1CaseTable (filenameFormat "")
        ⟨"Widget", "", "", [⟨"v1", some []⟩], none⟩)
      = [(filenameFor latin1CaseTable (filenameFormat "") "Widget" "v1", "\x7b\x7d")] :=
  (written_iff_schema_present brokenBodyWorld latin1CaseTable (filenameFormat "")
    "Widget" "" "" ⟨"v1", none⟩ [] none).2.2.2.2.2.2.2 "\x7b\x7d" rfl rfl

/-- Counterexample to C9 as stated: a version record, and a legacy document,
whose schema is present but is the empty mapping gets the call of
`writeSchemaFile`, and the file `widget_v1.json` is written. -/
theorem empty_schema_is_written :
    processDocument latin1CaseTable (filenameFormat "")
          ⟨"Widget", "", "", [⟨"v1", some []⟩], none⟩
        = [("widget_v1.json", [])]
      ∧ processDocument latin1CaseTable (filenameFormat "")
          ⟨"Widget", "", "v1", [], some []⟩
        = [("widget_v1.json", [])]
      ∧ filesWritten brokenBodyWorld (processDocument latin1CaseTable (filenameFormat "")
          ⟨"Widget", "", "", [⟨"v1", some []⟩], none⟩)
        = [("widget_v1.json", "\x7b\x7d")]
      ∧ filesWritten brokenBodyWorld (processDocument latin1CaseTable (filenameFormat "")
          ⟨"Widget", "", "v1", [], some []⟩)
        = [("widget_v1.json", "\x7b\x7d")] :=
  ⟨rfl, rfl, rfl, rfl⟩

/-- The document loop on a stream without malformed YAML: it leaves at
end-of-stream, within one iteration per document and one for the end, and the
calls it has made are those of the documents that decoded, in order; a document
that does not fit `Schema` contributes no call and the documents after it are
processed. -/
theorem documentLoop_finishes (caseTable : Char → Char) (format : String)
    (stream : List Decoded) (fuel : Nat)
    (hm : hasMalformed stream = false) (h : stream.length < fuel) :
    documentLoop caseTable format fuel ⟨stream, false⟩
      = some ⟨streamWrites caseTable format stream, false⟩ := by
  induction stream generalizing fuel with
  | nil =>
    cases fuel with
    | zero => omega
    | succ n => simp [documentLoop, Decoder.decode, streamWrites]
  | cons r rest ih =>
    cases fuel with
    | zero => omega
    | succ n =>
      have hlen : rest.length < n := by
        simp only [List.length_cons] at h
        omega
      cases r with
      | document d =>
        have hm2 : hasMalformed rest = false := by simpa [hasMalformed] using hm
        simp [documentLoop, Decoder.decode, streamWrites, ih n hm2 hlen]
      | mismatch =>
        have hm2 : hasMalformed rest = false := by simpa [hasMalformed] using hm
        simp [documentLoop, Decoder.decode, streamWrites, ih n hm2 hlen]
      | malformed => simp [hasMalformed] at hm

/-- A stream in which a document that does not fit `Schema` is followed by a
well-formed one yields the calls of the second document. -/
theorem documentLoop_finishes_witness :
    documentLoop latin1CaseTable (filenameFormat "") 3
        ⟨[.mismatch, .document widgetDocument], false⟩
      = some ⟨[("widget_v1.json", [("type", .scalar (.str "object"))])], false⟩ :=
  documentLoop_finishes latin1CaseTable (filenameFormat "")
    [.mismatch, .document widgetDocument] 3 rfl (by decide)

/-- The document loop on a stream with malformed YAML: the documents before the
first malformed one are processed, the malformed one is logged, and the next
call of `Decode` panics; the documents after it are never decoded. -/
theorem documentLoop_malformed_panics (caseTable : Char → Char) (format : String)
    (before after : List Decoded) (fuel : Nat)
    (hm : hasMalformed before = false) (h : before.length + 1 < fuel) :
    documentLoop caseTable format fuel ⟨before ++ .malformed :: after, false⟩
      = some ⟨streamWrites caseTable format before, true⟩ := by
  induction before generalizing fuel with
  | nil =>
    cases fuel with
    | zero => omega
    | succ n =>
      cases n with
      | zero => simp at h
      | succ n => simp [documentLoop, Decoder.decode, streamWrites]
  | cons r rest ih =>
    cases fuel with
    | zero => omega
    | succ n =>
      have hlen : rest.length + 1 < n := by
        simp only [List.length_cons] at h
        omega
      cases r with
      | document d =>
        have hm2 : hasMalformed rest = false := by simpa [hasMalformed] using hm
        simp [documentLoop, Decoder.decode, streamWrites, ih n hm2 hlen]
      | mismatch =>
        have hm2 : hasMalformed rest = false := by simpa [hasMalformed] using hm
        simp [documentLoop, Decoder.decode, streamWrites, ih n hm2 hlen]
      | malformed => simp [hasMalformed] at hm

/-- C7, the failing input: a stream of a malformed document followed by a
well-formed one. The malformed document is logged and skipped, but the next
call of `Decode` panics, so the loop does not reach end-of-stream and the
second document gets no file; a run over the files `bundle.yaml` (those two
documents) and `widget.yaml` ends in the panic, with no file written and the
second file never read. -/
theorem malformed_document_stops_run (caseTable : Char → Char) :
    documentLoop caseTable (filenameFormat "") 3
        ⟨[.malformed, .document widgetDocument], false⟩
      = some ⟨[], true⟩
      ∧ streamWrites caseTable (filenameFormat "") [.malformed, .document widgetDocument]
        = [("widget_v1.json", [("type", .scalar (.str "object"))])]
      ∧ sourcesLoop malformedFirstWorld caseTable 3 ["bundle.yaml", "widget.yaml"]
        = some ⟨[], true⟩
      ∧ sourcesLoop malformedFirstWorld caseTable 3 ["widget.yaml"]
        = some ⟨[("widget_v1.json", [("type", .scalar (.str "object"))])], false⟩ :=
  ⟨rfl, rfl, rfl, rfl⟩

/-- C8, the failing input: the request for the URL succeeds and the read of the
response body fails after the bytes of one document have arrived. The source is
not skipped: the bytes are decoded and the file of the document is written. -/
theorem body_read_failure_not_skipped (caseTable : Char → Char) :
    sourcesLoop brokenBodyWorld caseTable 2 ["http://crds.example/widget.yaml"]
        = some ⟨[("widget_v1.json", [("type", .scalar (.str "object"))])], false⟩
      ∧ filesWritten brokenBodyWorld
          [("widget_v1.json", [("type", .scalar (.str "object"))])]
        = [("widget_v1.json", "\x7b\n  \"type\": \"object\"\n\x7d")] :=
  ⟨rfl, rfl⟩

/-- The two sibling paths of C8: a source whose HTTP request fails, and a file
whose read fails, is skipped and the sources after it are processed. -/
theorem failed_fetch_and_failed_file_skipped (w : World) (caseTable : Char → Char)
    (fuel : Nat) (crdFile : String) (rest : List String)
    (h : (startsWith crdFile "http" = true ∧ w.httpGet crdFile = .failed)
      ∨ (startsWith crdFile "http" = false ∧ (w.readFile crdFile).2 = true)) :
    sourcesLoop w caseTable fuel (crdFile :: rest) = sourcesLoop w caseTable fuel rest := by
  rcases h with ⟨h1, h2⟩ | ⟨h1, h2⟩
  · simp [sourcesLoop, readSource, h1, h2]
  · simp [sourcesLoop, readSource, h1, h2]

end OpenAPI2JSONSchema
